import Mathlib

/-!
Verification of the quantitative core of a trading system: the risk manager
(`src/risk_limits.py`), the backtest engine (`src/backtest_engine.py`) and the
technical-indicator layer (`src/indicators.py`).  Python floats are modelled as
exact rationals; pandas missing values (NaN) and infinities are modelled by an
explicit value type where they can arise (the RSI pipeline).
-/

namespace Trading
/-! ## Risk manager (`src/risk_limits.py`) -/

/-- Shallow embedding of the per-symbol position record built by
`RiskManager.add_position`. -/
structure Position where
  entry_price : ℚ
  quantity : ℚ
  stop_loss : ℚ
  take_profit : ℚ
deriving DecidableEq, Repr

/-- Shallow embedding of the mutable state of a `RiskManager` instance:
the three limits set in `__init__`, the cumulative realized-loss accumulator
`current_loss`, and the symbol-keyed position table (a Python dict, modelled
as an association list with no duplicate keys). -/
structure RiskManager where
  max_daily_loss : ℚ
  max_position_size : ℚ
  max_leverage : ℚ
  current_loss : ℚ
  positions : List (String × Position)
deriving DecidableEq, Repr

/-- `RiskManager.__init__`: limits are stored, `current_loss = 0.0`,
`positions = {}`. -/
def mkRiskManager (max_daily_loss max_position_size max_leverage : ℚ) :
    RiskManager :=
  ⟨max_daily_loss, max_position_size, max_leverage, 0, []⟩

/-- `RiskManager.calculate_position_size`:
`min(account_balance * risk_per_trade / stop_loss_pct,
     account_balance * self.max_position_size)`. -/
def calculate_position_size (rm : RiskManager) (account_balance : ℚ)
    (risk_per_trade stop_loss_pct : ℚ) : ℚ :=
  min (account_balance * risk_per_trade / stop_loss_pct)
    (account_balance * rm.max_position_size)

/-- `RiskManager.can_open_position`: false if
`current_loss >= account_balance * max_daily_loss`, false if
`position_size > account_balance * max_position_size`, otherwise true.
The `symbol` argument is received but never read by the source. -/
def can_open_position (rm : RiskManager) (symbol : String)
    (position_size account_balance : ℚ) : Bool :=
  if account_balance * rm.max_daily_loss ≤ rm.current_loss then false
  else if account_balance * rm.max_position_size < position_size then false
  else true

/-- `RiskManager.add_position`: dict assignment `self.positions[symbol] = {...}`
with the hard-coded take-profit `entry_price * 1.05`. -/
def add_position (rm : RiskManager) (symbol : String)
    (entry_price quantity stop_loss : ℚ) : RiskManager :=
  { rm with
    positions :=
      (symbol, ⟨entry_price, quantity, stop_loss, entry_price * (21 / 20)⟩) ::
        rm.positions.filter (fun p => p.1 ≠ symbol) }

/-- `RiskManager.check_stop_loss`: true iff a position exists for `symbol`
and `current_price <= stop_loss`. -/
def check_stop_loss (rm : RiskManager) (symbol : String)
    (current_price : ℚ) : Bool :=
  match rm.positions.lookup symbol with
  | none => false
  | some pos => current_price ≤ pos.stop_loss

/-- `RiskManager.check_take_profit`: true iff a position exists for `symbol`
and `current_price >= take_profit`. -/
def check_take_profit (rm : RiskManager) (symbol : String)
    (current_price : ℚ) : Bool :=
  match rm.positions.lookup symbol with
  | none => false
  | some pos => pos.take_profit ≤ current_price

/-- The dict returned by `RiskManager.close_position` on a hit
(`{'symbol', 'pnl', 'pnl_pct', 'quantity'}`); the miss case returns the empty
dict, modelled as `none`. -/
structure ClosedTrade where
  symbol : String
  pnl : ℚ
  pnl_pct : ℚ
  quantity : ℚ
deriving DecidableEq, Repr

/-- `RiskManager.close_position`: on a missing symbol, return `{}` and leave
the state alone; otherwise compute pnl, add `abs(pnl)` to `current_loss`
when `pnl < 0`, delete the position and return the trade record. -/
def close_position (rm : RiskManager) (symbol : String) (exit_price : ℚ) :
    Option ClosedTrade × RiskManager :=
  match rm.positions.lookup symbol with
  | none => (none, rm)
  | some pos =>
      let pnl := (exit_price - pos.entry_price) * pos.quantity
      let pnl_pct := (exit_price - pos.entry_price) / pos.entry_price * 100
      (some ⟨symbol, pnl, pnl_pct, pos.quantity⟩,
        { rm with
          current_loss :=
            if pnl < 0 then rm.current_loss + |pnl| else rm.current_loss,
          positions := rm.positions.filter (fun p => p.1 ≠ symbol) })

/-- One call against a `RiskManager` instance, covering every public method. -/
inductive RMOp where
  | calcSize (account_balance risk_per_trade stop_loss_pct : ℚ)
  | canOpen (symbol : String) (position_size account_balance : ℚ)
  | addPos (symbol : String) (entry_price quantity stop_loss : ℚ)
  | checkSL (symbol : String) (current_price : ℚ)
  | checkTP (symbol : String) (current_price : ℚ)
  | closePos (symbol : String) (exit_price : ℚ)

/-- State transition of one `RiskManager` method call.  The query methods
(`calculate_position_size`, `can_open_position`, `check_stop_loss`,
`check_take_profit`) do not mutate the instance in the source; `add_position`
and `close_position` do. -/
def applyOp (rm : RiskManager) (op : RMOp) : RiskManager :=
  match op with
  | .calcSize _ _ _ => rm
  | .canOpen _ _ _ => rm
  | .addPos s e q sl => add_position rm s e q sl
  | .checkSL _ _ => rm
  | .checkTP _ _ => rm
  | .closePos s p => (close_position rm s p).2

/-! ## Backtest engine (`src/backtest_engine.py`) -/

/-- A strategy decision, as produced by the caller-supplied strategy
function. -/
inductive Signal where
  | BUY
  | SELL
  | HOLD
deriving DecidableEq, Repr

/-- One OHLCV bar of the input DataFrame. -/
structure Candle where
  timestamp : ℚ
  open_price : ℚ
  high : ℚ
  low : ℚ
  close : ℚ
  volume : ℚ
deriving DecidableEq, Repr

/-- The default candle used only to totalize positional lookup; the loop in
`run_backtest` never reads out of range. -/
def candle0 : Candle := ⟨0, 0, 0, 0, 0, 0⟩

/-- Loop state of `run_backtest`: `balance`, the single-slot open position
`(entry, size)`, and the closed-trade pnl log. -/
structure BTState where
  balance : ℚ
  position : Option (ℚ × ℚ)
  trades : List ℚ
deriving DecidableEq, Repr

/-- One iteration of the loop in `run_backtest`: the strategy sees
`df.iloc[:idx+1]` (the prefix through the current row); BUY with no position
opens `{'entry': close, 'size': balance/close}`; SELL with a position realizes
`(close - entry) * size` into the balance and the trade log; every other
combination leaves the state unchanged. -/
def btStep (strat : List Candle → Signal) (df : List Candle)
    (s : BTState) (idx : ℕ) : BTState :=
  let c := (df.getD idx candle0).close
  match strat (df.take (idx + 1)), s.position with
  | Signal.BUY, none => { s with position := some (c, s.balance / c) }
  | Signal.SELL, some (entry, size) =>
      { balance := s.balance + (c - entry) * size,
        position := none,
        trades := s.trades ++ [(c - entry) * size] }
  | _, _ => s

/-- Final loop state of `run_backtest` starting from
`balance = initial_capital`, no position, empty trade log. -/
def btFinal (initial_capital : ℚ) (df : List Candle)
    (strat : List Candle → Signal) : BTState :=
  (List.range df.length).foldl (btStep strat df) ⟨initial_capital, none, []⟩

/-- The dict returned by `run_backtest`. -/
structure BacktestReport where
  final_balance : ℚ
  total_return : ℚ
  trades : ℕ
  win_rate : ℚ
deriving DecidableEq, Repr

/-- `BacktestEngine.run_backtest`: run the loop, then report
`final_balance`, `total_return = (balance - C)/C * 100`, `trades = len(trades)`
and `win_rate = len([t for t in trades if t > 0]) / len(trades) if trades
else 0`. -/
def run_backtest (initial_capital : ℚ) (df : List Candle)
    (strat : List Candle → Signal) : BacktestReport :=
  let final := btFinal initial_capital df strat
  { final_balance := final.balance,
    total_return := (final.balance - initial_capital) / initial_capital * 100,
    trades := final.trades.length,
    win_rate :=
      if final.trades = [] then 0
      else ((final.trades.filter (fun t => 0 < t)).length : ℚ) /
        (final.trades.length : ℚ) }

/-! ## Indicator engine (`src/indicators.py`)

The RSI pipeline can produce pandas missing values (the first element of
`prices.diff()`, unfilled rolling windows, `0/0`) and infinities (`x/0` with
`x > 0`), so its element values are modelled by `FVal`: an exact rational,
`nan`, or a signed infinity, with IEEE-style arithmetic. -/

/-- A float value as it flows through the pandas RSI pipeline. -/
inductive FVal where
  | nan : FVal
  | inf : FVal
  | ninf : FVal
  | num : ℚ → FVal
deriving DecidableEq, Repr

namespace FVal

/-- IEEE-style addition (NaN propagates; `inf + (-inf) = NaN`). -/
def add : FVal → FVal → FVal
  | nan, _ => nan
  | _, nan => nan
  | inf, ninf => nan
  | ninf, inf => nan
  | inf, _ => inf
  | _, inf => inf
  | ninf, _ => ninf
  | _, ninf => ninf
  | num a, num b => num (a + b)

/-- IEEE-style subtraction. -/
def sub : FVal → FVal → FVal
  | nan, _ => nan
  | _, nan => nan
  | inf, inf => nan
  | ninf, ninf => nan
  | inf, _ => inf
  | _, inf => ninf
  | ninf, _ => ninf
  | _, ninf => inf
  | num a, num b => num (a - b)

/-- IEEE-style division as numpy performs it on series elements: `0/0 = NaN`,
`x/0 = ±inf` for `x ≠ 0`, finite/±inf `= 0`. -/
def div : FVal → FVal → FVal
  | nan, _ => nan
  | _, nan => nan
  | inf, inf => nan
  | inf, ninf => nan
  | ninf, inf => nan
  | ninf, ninf => nan
  | inf, num b => if b < 0 then ninf else inf
  | ninf, num b => if b < 0 then inf else ninf
  | num _, inf => num 0
  | num _, ninf => num 0
  | num a, num b =>
      if b = 0 then (if a = 0 then nan else if 0 < a then inf else ninf)
      else num (a / b)

/-- Negation. -/
def neg : FVal → FVal
  | nan => nan
  | inf => ninf
  | ninf => inf
  | num a => num (-a)

/-- The comparison `v > 0` as pandas evaluates it (`NaN > 0` is false). -/
def gt0 : FVal → Bool
  | nan => false
  | inf => true
  | ninf => false
  | num a => 0 < a

/-- The comparison `v < 0` as pandas evaluates it (`NaN < 0` is false). -/
def lt0 : FVal → Bool
  | nan => false
  | inf => false
  | ninf => true
  | num a => a < 0

end FVal

/-- `prices.diff()`: NaN at index 0, `prices[i] - prices[i-1]` after. -/
def seriesDiff (prices : List ℚ) : List FVal :=
  match prices with
  | [] => []
  | _ :: tl => FVal.nan :: List.zipWith (fun b a => FVal.num (b - a)) tl prices

/-- The trailing window `xs[i+1-P .. i]` read by a rolling mean at index
`i`. -/
def windowAt (xs : List FVal) (P i : ℕ) : List FVal :=
  (xs.drop (i + 1 - P)).take P

/-- `series.rolling(window=P).mean()` with the default `min_periods`:
NaN until the window fills, then the window sum divided by `P` (NaN-absorbing
through `FVal` arithmetic, exactly as pandas propagates missing values). -/
def rollingMean (xs : List FVal) (P : ℕ) : List FVal :=
  (List.range xs.length).map fun i =>
    if i + 1 < P then FVal.nan
    else FVal.div ((windowAt xs P i).foldl FVal.add (FVal.num 0)) (FVal.num P)

/-- The gains series `delta.where(delta > 0, 0)` of `calculate_rsi`. -/
def gainSeries (prices : List ℚ) : List FVal :=
  (seriesDiff prices).map fun v => if v.gt0 then v else FVal.num 0

/-- The losses series `-delta.where(delta < 0, 0)` of `calculate_rsi`:
elementwise negation of `delta.where(delta < 0, 0)`. -/
def lossSeries (prices : List ℚ) : List FVal :=
  (seriesDiff prices).map fun v =>
    FVal.neg (if v.lt0 then v else FVal.num 0)

/-- The rolling mean gain of `calculate_rsi`. -/
def rsiGain (prices : List ℚ) (period : ℕ) : List FVal :=
  rollingMean (gainSeries prices) period

/-- The rolling mean loss of `calculate_rsi`. -/
def rsiLoss (prices : List ℚ) (period : ℕ) : List FVal :=
  rollingMean (lossSeries prices) period

/-- `TechnicalIndicators.calculate_rsi`: `rs = gain / loss`,
`rsi = 100 - 100 / (1 + rs)`. -/
def calculate_rsi (prices : List ℚ) (period : ℕ) : List FVal :=
  (List.zipWith FVal.div (rsiGain prices period) (rsiLoss prices period)).map
    fun rs => FVal.sub (FVal.num 100)
      (FVal.div (FVal.num 100) (FVal.add (FVal.num 1) rs))

/-- `TechnicalIndicators.identify_support_resistance`: for
`i in range(window, len(prices) - window)`, the slice
`prices.iloc[i-window : i+window]` (the 2·window points at offsets
`i-window, …, i+window-1`); `i` is a support point iff `prices[i]` equals the
slice minimum, a resistance point iff it equals the slice maximum.  An empty
slice has no minimum (pandas yields NaN, and `NaN == x` is false). -/
def identify_support_resistance (prices : List ℚ) (window : ℕ) :
    List (ℕ × ℚ) × List (ℕ × ℚ) :=
  let idxs := List.range' window (prices.length - window - window)
  (idxs.filterMap fun i =>
      if ((prices.drop (i - window)).take (2 * window)).min? =
          some (prices.getD i 0)
      then some (i, prices.getD i 0) else none,
   idxs.filterMap fun i =>
      if ((prices.drop (i - window)).take (2 * window)).max? =
          some (prices.getD i 0)
      then some (i, prices.getD i 0) else none)

/-- A risk-manager state with one open position, used by concrete
witnesses. -/
def rmETH : RiskManager :=
  { mkRiskManager (1 / 20) (1 / 10) 1 with
    positions := [("ETH", ⟨100, 2, 90, 105⟩)] }

/-- The two-candle strictly increasing close series used by the C2
witness. -/
def dfUp : List Candle := [⟨0, 0, 0, 0, 1, 0⟩, ⟨1, 0, 0, 0, 2, 0⟩]

/-- The C2 witness strategy: BUY on the one-row prefix, SELL on the full
series. -/
def stratUp : List Candle → Signal :=
  fun pre => if pre.length ≤ 1 then Signal.BUY else Signal.SELL

lemma applyOp_current_loss_mono (rm : RiskManager) (op : RMOp) :
    rm.current_loss ≤ (applyOp rm op).current_loss := by
  rcases op with _ | _ | _ | _ | _ | ⟨s, p⟩ <;> try exact le_refl _
  · simp only [applyOp, close_position]
    rcases h : rm.positions.lookup s with _ | pos
    · exact le_refl _
    · simp only
      split
      · exact le_add_of_nonneg_right (abs_nonneg _)
      · exact le_refl _

lemma btStep_hold (strat : List Candle → Signal) (df : List Candle)
    (s : BTState) (idx : ℕ) (h : strat (df.take (idx + 1)) = Signal.HOLD) :
    btStep strat df s idx = s := by
  simp only [btStep, h]

lemma foldl_btStep_hold (strat : List Candle → Signal) (df : List Candle)
    (l : List ℕ) (s : BTState)
    (h : ∀ k ∈ l, strat (df.take (k + 1)) = Signal.HOLD) :
    l.foldl (btStep strat df) s = s := by
  induction l with
  | nil => rfl
  | cons a l ih =>
      rw [List.foldl_cons, btStep_hold strat df s a (h a (List.mem_cons_self a l))]
      exact ih (fun k hk => h k (List.mem_cons_of_mem a hk))

lemma btStep_balance_sub_sum (strat : List Candle → Signal) (df : List Candle)
    (s : BTState) (idx : ℕ) :
    (btStep strat df s idx).balance - (btStep strat df s idx).trades.sum =
      s.balance - s.trades.sum := by
  rcases hs : strat (df.take (idx + 1)) with _ | _ | _ <;>
    rcases hp : s.position with _ | ⟨entry, size⟩ <;>
      simp [btStep, hs, hp]

lemma foldl_btStep_balance_sub_sum (strat : List Candle → Signal)
    (df : List Candle) (l : List ℕ) (s : BTState) :
    (l.foldl (btStep strat df) s).balance -
        (l.foldl (btStep strat df) s).trades.sum =
      s.balance - s.trades.sum := by
  induction l generalizing s with
  | nil => rfl
  | cons a l ih =>
      rw [List.foldl_cons, ih (btStep strat df s a),
        btStep_balance_sub_sum strat df s a]

/-! ## Claim theorems: risk manager -/

/-- C5: for every balance, risk_per_trade and strictly positive stop_loss_pct,
`calculate_position_size` returns
`min(balance * risk_per_trade / stop_loss_pct, balance * max_position_size)`,
hence is always `≤ balance * max_position_size`; with balance 10000,
risk_per_trade 0.02, stop_loss_pct 0.02 and the default limits
(max_daily_loss 0.05, max_position_size 0.1, max_leverage 1.0) it
equals 1000. -/
theorem calculate_position_size_spec :
    (∀ (rm : RiskManager) (balance risk_per_trade stop_loss_pct : ℚ),
      0 < stop_loss_pct →
      calculate_position_size rm balance risk_per_trade stop_loss_pct =
        min (balance * risk_per_trade / stop_loss_pct)
          (balance * rm.max_position_size) ∧
      calculate_position_size rm balance risk_per_trade stop_loss_pct ≤
        balance * rm.max_position_size) ∧
    calculate_position_size (mkRiskManager (1 / 20) (1 / 10) 1) 10000
      (1 / 50) (1 / 50) = 1000 := by
  refine ⟨fun rm balance risk_per_trade stop_loss_pct _ =>
    ⟨rfl, min_le_right _ _⟩, ?_⟩
  norm_num [calculate_position_size, mkRiskManager]

/-- Witness for C5 at balance 10000, risk 0.02, stop 0.02 and the default
limits. -/
theorem calculate_position_size_spec_witness :
    calculate_position_size (mkRiskManager (1 / 20) (1 / 10) 1) 10000
        (1 / 50) (1 / 50) =
      min ((10000 : ℚ) * (1 / 50) / (1 / 50))
        (10000 * (mkRiskManager (1 / 20) (1 / 10) 1).max_position_size) ∧
    calculate_position_size (mkRiskManager (1 / 20) (1 / 10) 1) 10000
        (1 / 50) (1 / 50) ≤
      10000 * (mkRiskManager (1 / 20) (1 / 10) 1).max_position_size :=
  calculate_position_size_spec.1 (mkRiskManager (1 / 20) (1 / 10) 1) 10000
    (1 / 50) (1 / 50) (by norm_num)

/-- C6: closing a symbol with no open position returns the empty result and
returns the risk state exactly as it was: same loss accumulator, same
position table. -/
theorem close_position_missing (rm : RiskManager) (symbol : String)
    (exit_price : ℚ) (h : rm.positions.lookup symbol = none) :
    close_position rm symbol exit_price = (none, rm) := by
  simp [close_position, h]

/-- Witness for C6: closing "BTC" against a table holding only "ETH" is a
no-op. -/
theorem close_position_missing_witness :
    rmETH.positions.lookup "BTC" = none ∧
    close_position rmETH "BTC" 50 = (none, rmETH) :=
  ⟨rfl, close_position_missing rmETH "BTC" 50 rfl⟩

/-- C7: the cumulative realized-loss accumulator is monotone over the
lifetime of a `RiskManager` instance: each single method call leaves it
`≥` its previous value, and so does any finite sequence of calls; no
operation resets it. -/
theorem current_loss_mono (rm : RiskManager) :
    (∀ op : RMOp, rm.current_loss ≤ (applyOp rm op).current_loss) ∧
    (∀ ops : List RMOp,
      rm.current_loss ≤ (ops.foldl applyOp rm).current_loss) := by
  refine ⟨applyOp_current_loss_mono rm, fun ops => ?_⟩
  induction ops generalizing rm with
  | nil => exact le_refl _
  | cons op ops ih =>
      exact le_trans (applyOp_current_loss_mono rm op) (ih (applyOp rm op))

/-- C10: `can_open_position` depends only on the current loss and the two
limits it reads; two states agreeing on those yield the same verdict for any
two symbols, whatever the position tables hold — in particular an already
open position for the symbol never causes a rejection. -/
theorem can_open_position_uniform (rm₁ rm₂ : RiskManager) (s₁ s₂ : String)
    (position_size account_balance : ℚ)
    (hloss : rm₁.current_loss = rm₂.current_loss)
    (hdaily : rm₁.max_daily_loss = rm₂.max_daily_loss)
    (hsize : rm₁.max_position_size = rm₂.max_position_size) :
    can_open_position rm₁ s₁ position_size account_balance =
      can_open_position rm₂ s₂ position_size account_balance := by
  simp [can_open_position, hloss, hdaily, hsize]

/-- Witness for C10: a state with "ETH" open and a fresh state with an empty
table give the same verdict when asked about "ETH". -/
theorem can_open_position_uniform_witness :
    can_open_position rmETH "ETH" 500 10000 =
      can_open_position (mkRiskManager (1 / 20) (1 / 10) 1) "BTC" 500 10000 :=
  can_open_position_uniform rmETH (mkRiskManager (1 / 20) (1 / 10) 1)
    "ETH" "BTC" 500 10000 rfl rfl rfl

/-! ## Claim theorems: backtest engine -/

/-- C8: `run_backtest` never auto-liquidates a position left open at the end
of the series: the final balance is the initial capital plus the sum of the
pnls of closed trades only, the trade count is the number of closed trades,
and the win rate is computed from the closed-trade log only. -/
theorem no_auto_liquidation (C : ℚ) (df : List Candle)
    (strat : List Candle → Signal) :
    (run_backtest C df strat).final_balance =
      C + (btFinal C df strat).trades.sum ∧
    (run_backtest C df strat).trades = (btFinal C df strat).trades.length ∧
    (run_backtest C df strat).win_rate =
      (if (btFinal C df strat).trades = [] then 0
       else (((btFinal C df strat).trades.filter (fun t => 0 < t)).length : ℚ) /
         ((btFinal C df strat).trades.length : ℚ)) := by
  refine ⟨?_, rfl, rfl⟩
  have h := foldl_btStep_balance_sub_sum strat df (List.range df.length)
    ⟨C, none, []⟩
  simp only [List.sum_nil, sub_zero] at h
  have hb : (btFinal C df strat).balance -
      (btFinal C df strat).trades.sum = C := h
  show (btFinal C df strat).balance = C + (btFinal C df strat).trades.sum
  linarith

/-- C9: whenever a backtest run closes no trades, the reported win rate is 0
(the guard takes the `trades else 0` branch, so the zero-denominator division
is never evaluated). -/
theorem win_rate_no_trades (C : ℚ) (df : List Candle)
    (strat : List Candle → Signal)
    (h : (run_backtest C df strat).trades = 0) :
    (run_backtest C df strat).win_rate = 0 := by
  have hnil : (btFinal C df strat).trades = [] :=
    List.length_eq_zero.mp h
  simp [run_backtest, hnil]

/-- Witness for C9: an empty candle series closes no trades and reports
win rate 0. -/
theorem win_rate_no_trades_witness :
    (run_backtest 100 [] (fun _ => Signal.HOLD)).trades = 0 ∧
    (run_backtest 100 [] (fun _ => Signal.HOLD)).win_rate = 0 :=
  ⟨rfl, win_rate_no_trades 100 [] (fun _ => Signal.HOLD) rfl⟩

/-- C2: on a strictly increasing positive close series of length at least 2,
with positive initial capital and a strategy that signals BUY at step 0,
SELL at the final step and HOLD in between, `run_backtest` reports a strictly
positive total return. -/
theorem backtest_monotone_gain (df : List Candle) (C : ℚ)
    (f : List Candle → Signal) (hlen : 2 ≤ df.length)
    (hmono : ∀ j k, j < k → k < df.length →
      (df.getD j candle0).close < (df.getD k candle0).close)
    (hpos : ∀ j, j < df.length → 0 < (df.getD j candle0).close)
    (hC : 0 < C)
    (hf : ∀ k, k < df.length → f (df.take (k + 1)) =
      (if k = 0 then Signal.BUY
       else if k = df.length - 1 then Signal.SELL else Signal.HOLD)) :
    0 < (run_backtest C df f).total_return := by
  set n := df.length with hn
  set c0 := (df.getD 0 candle0).close with hc0
  set cl := (df.getD (n - 1) candle0).close with hcl
  have hrange : List.range n = 0 :: (List.range' 1 (n - 2) ++ [n - 1]) := by
    rw [List.range_eq_range']
    have h1 : n = (n - 1) + 1 := by omega
    rw [h1, List.range'_succ, ← h1]
    congr 1
    have h2 : n - 1 = (n - 2) + 1 := by omega
    rw [h2, List.range'_concat]
    congr 2
    omega
  have hbuy : f (df.take 1) = Signal.BUY := by
    have := hf 0 (by omega)
    simpa using this
  have hsell : f (df.take n) = Signal.SELL := by
    have := hf (n - 1) (by omega)
    rw [if_neg (by omega), if_pos rfl] at this
    have harg : n - 1 + 1 = n := by omega
    rwa [harg] at this
  have hstep0 : btStep f df ⟨C, none, []⟩ 0 = ⟨C, some (c0, C / c0), []⟩ := by
    simp only [btStep, hbuy]
  have hmid : ∀ k ∈ List.range' 1 (n - 2),
      f (df.take (k + 1)) = Signal.HOLD := by
    intro k hk
    rw [List.mem_range'] at hk
    obtain ⟨i, hi, rfl⟩ := hk
    have := hf (1 + 1 * i) (by omega)
    rwa [if_neg (by omega), if_neg (by omega)] at this
  have hlast : btStep f df ⟨C, some (c0, C / c0), []⟩ (n - 1) =
      ⟨C + (cl - c0) * (C / c0), none, [(cl - c0) * (C / c0)]⟩ := by
    have harg : n - 1 + 1 = n := by omega
    simp [btStep, harg, hsell, hcl]
  have hfinal : btFinal C df f =
      ⟨C + (cl - c0) * (C / c0), none, [(cl - c0) * (C / c0)]⟩ := by
    rw [btFinal, ← hn, hrange, List.foldl_cons, hstep0, List.foldl_append,
      foldl_btStep_hold f df _ _ hmid, List.foldl_cons, List.foldl_nil, hlast]
  have hc0pos : 0 < c0 := hpos 0 (by omega)
  have hclgt : c0 < cl := hmono 0 (n - 1) (by omega) (by omega)
  have hpnl : 0 < (cl - c0) * (C / c0) :=
    mul_pos (by linarith) (div_pos hC hc0pos)
  have : (run_backtest C df f).total_return =
      (C + (cl - c0) * (C / c0) - C) / C * 100 := by
    rw [run_backtest]
    simp [hfinal]
  rw [this]
  have hsimp : C + (cl - c0) * (C / c0) - C = (cl - c0) * (C / c0) := by ring
  rw [hsimp]
  exact mul_pos (div_pos hpnl hC) (by norm_num)

/-- Witness for C2: two candles with closes 1 then 2, capital 100, BUY then
SELL, gives a strictly positive total return. -/
theorem backtest_monotone_gain_witness :
    0 < (run_backtest 100 dfUp stratUp).total_return := by
  refine backtest_monotone_gain dfUp 100 stratUp (by decide) ?_ ?_
    (by norm_num) ?_
  · intro j k hjk hk
    have hj : j = 0 ∧ k = 1 := by
      have : k < 2 := hk
      omega
    obtain ⟨rfl, rfl⟩ := hj
    norm_num [dfUp, candle0]
  · intro j hj
    have : j < 2 := hj
    interval_cases j <;> norm_num [dfUp, candle0]
  · intro k hk
    have : k < 2 := hk
    interval_cases k <;> decide

/-! ## RSI structure lemmas -/

lemma mem_zipWith_num :
    ∀ (tl ps : List ℚ), ∀ v ∈ List.zipWith (fun b a => FVal.num (b - a)) tl ps,
      ∃ q, v = FVal.num q
  | [], _, v, hv => by simp at hv
  | _ :: _, [], v, hv => by simp at hv
  | b :: tl, a :: ps, v, hv => by
      rcases List.mem_cons.mp hv with rfl | hv
      · exact ⟨b - a, rfl⟩
      · exact mem_zipWith_num tl ps v hv

lemma seriesDiff_shape (prices : List ℚ) :
    ∀ v ∈ seriesDiff prices, v = FVal.nan ∨ ∃ q, v = FVal.num q := by
  cases prices with
  | nil => simp [seriesDiff]
  | cons p tl =>
      intro v hv
      rcases List.mem_cons.mp hv with rfl | hv
      · exact Or.inl rfl
      · exact Or.inr (mem_zipWith_num tl (p :: tl) v hv)

lemma gainSeries_shape (prices : List ℚ) :
    ∀ v ∈ gainSeries prices, ∃ q, v = FVal.num q ∧ 0 ≤ q := by
  intro v hv
  simp only [gainSeries, List.mem_map] at hv
  obtain ⟨w, hw, rfl⟩ := hv
  rcases seriesDiff_shape prices w hw with rfl | ⟨q, rfl⟩
  · exact ⟨0, rfl, le_refl 0⟩
  · by_cases h : 0 < q
    · simp only [FVal.gt0, decide_eq_true_eq, h, if_pos, if_true]
      exact ⟨q, by simp [h], le_of_lt h⟩
    · refine ⟨0, ?_, le_refl 0⟩
      simp [FVal.gt0, h]

lemma lossSeries_shape (prices : List ℚ) :
    ∀ v ∈ lossSeries prices, ∃ q, v = FVal.num q ∧ 0 ≤ q := by
  intro v hv
  simp only [lossSeries, List.mem_map] at hv
  obtain ⟨w, hw, rfl⟩ := hv
  rcases seriesDiff_shape prices w hw with rfl | ⟨q, rfl⟩
  · exact ⟨0, by simp [FVal.lt0, FVal.neg], le_refl 0⟩
  · by_cases h : q < 0
    · refine ⟨-q, ?_, by linarith⟩
      simp [FVal.lt0, h, FVal.neg]
    · refine ⟨0, ?_, le_refl 0⟩
      simp [FVal.lt0, h, FVal.neg]

lemma windowAt_subset (xs : List FVal) (P i : ℕ) : windowAt xs P i ⊆ xs :=
  (List.take_subset _ _).trans (List.drop_subset _ _)

lemma foldl_add_num (l : List FVal) :
    (∀ v ∈ l, ∃ q, v = FVal.num q ∧ 0 ≤ q) →
    ∀ a : ℚ, 0 ≤ a →
      ∃ s, l.foldl FVal.add (FVal.num a) = FVal.num s ∧ 0 ≤ s := by
  induction l with
  | nil => exact fun _ a ha => ⟨a, rfl, ha⟩
  | cons v l ih =>
      intro h a ha
      obtain ⟨q, hv, hq⟩ := h v (List.mem_cons_self v l)
      subst hv
      rw [List.foldl_cons]
      exact ih (fun w hw => h w (List.mem_cons_of_mem _ hw)) (a + q)
        (by linarith)

lemma rollingMean_length (xs : List FVal) (P : ℕ) :
    (rollingMean xs P).length = xs.length := by
  simp [rollingMean]

lemma rollingMean_getElem? (xs : List FVal) (P i : ℕ) (h : i < xs.length) :
    (rollingMean xs P)[i]? =
      some (if i + 1 < P then FVal.nan
        else FVal.div ((windowAt xs P i).foldl FVal.add (FVal.num 0))
          (FVal.num P)) := by
  simp [rollingMean, List.getElem?_map, List.getElem?_range h]

lemma rollingMean_num (xs : List FVal) (P i : ℕ) (hP : 1 ≤ P)
    (hi : i < xs.length) (hfull : P ≤ i + 1)
    (h : ∀ v ∈ xs, ∃ q, v = FVal.num q ∧ 0 ≤ q) :
    ∃ m, (rollingMean xs P)[i]? = some (FVal.num m) ∧ 0 ≤ m := by
  obtain ⟨s, hs, hs0⟩ :=
    foldl_add_num _ (fun v hv => h v (windowAt_subset xs P i hv)) 0 le_rfl
  rw [rollingMean_getElem? xs P i hi, if_neg (by omega), hs]
  have hPQ : ((P : ℚ)) ≠ 0 := Nat.cast_ne_zero.mpr (by omega)
  refine ⟨s / P, ?_, ?_⟩
  · simp [FVal.div, hPQ]
  · exact div_nonneg hs0 (by positivity)

lemma gainSeries_length (prices : List ℚ) :
    (gainSeries prices).length = prices.length := by
  cases prices with
  | nil => rfl
  | cons p tl => simp [gainSeries, seriesDiff]

lemma lossSeries_length (prices : List ℚ) :
    (lossSeries prices).length = prices.length := by
  cases prices with
  | nil => rfl
  | cons p tl => simp [lossSeries, seriesDiff]

lemma rsiGain_length (prices : List ℚ) (P : ℕ) :
    (rsiGain prices P).length = prices.length := by
  rw [rsiGain, rollingMean_length, gainSeries_length]

lemma rsiLoss_length (prices : List ℚ) (P : ℕ) :
    (rsiLoss prices P).length = prices.length := by
  rw [rsiLoss, rollingMean_length, lossSeries_length]

lemma calculate_rsi_getElem?_eq {prices : List ℚ} {P i : ℕ} {gv lv : FVal}
    (hg : (rsiGain prices P)[i]? = some gv)
    (hl : (rsiLoss prices P)[i]? = some lv) :
    (calculate_rsi prices P)[i]? =
      some (FVal.sub (FVal.num 100)
        (FVal.div (FVal.num 100)
          (FVal.add (FVal.num 1) (FVal.div gv lv)))) := by
  simp [calculate_rsi, List.getElem?_map, List.getElem?_zipWith', hg, hl]

lemma rollingMean_defined_nonneg (xs : List FVal) (P i : ℕ) (g : ℚ)
    (hsh : ∀ v ∈ xs, ∃ q, v = FVal.num q ∧ 0 ≤ q)
    (h : (rollingMean xs P)[i]? = some (FVal.num g)) : 0 ≤ g := by
  have hi : i < xs.length := by
    obtain ⟨hlt, _⟩ := List.getElem?_eq_some_iff.mp h
    rwa [rollingMean_length] at hlt
  rw [rollingMean_getElem? xs P i hi] at h
  by_cases hP : i + 1 < P
  · rw [if_pos hP] at h
    exact absurd (Option.some.inj h) (by simp)
  · rw [if_neg hP] at h
    obtain ⟨s, hs, hs0⟩ :=
      foldl_add_num _ (fun v hv => hsh v (windowAt_subset xs P i hv)) 0 le_rfl
    rw [hs] at h
    simp only [FVal.div] at h
    by_cases hP0 : ((P : ℚ)) = 0
    · rw [if_pos hP0] at h
      by_cases hsz : s = 0
      · rw [if_pos hsz] at h
        exact absurd (Option.some.inj h) (by simp)
      · rw [if_neg hsz] at h
        by_cases hsp : 0 < s
        · rw [if_pos hsp] at h
          exact absurd (Option.some.inj h) (by simp)
        · rw [if_neg hsp] at h
          exact absurd (Option.some.inj h) (by simp)
    · rw [if_neg hP0] at h
      have hv : s / (P : ℚ) = g := FVal.num.inj (Option.some.inj h)
      rw [← hv]
      exact div_nonneg hs0 (Nat.cast_nonneg P)

lemma rsi_value_of_means (prices : List ℚ) (P i : ℕ) (g l : ℚ)
    (hg : (rsiGain prices P)[i]? = some (FVal.num g))
    (hl : (rsiLoss prices P)[i]? = some (FVal.num l))
    (hg0 : 0 ≤ g) (hlpos : 0 < l) :
    (calculate_rsi prices P)[i]? =
      some (FVal.num (100 - 100 / (1 + g / l))) ∧
    0 ≤ 100 - 100 / (1 + g / l) ∧ 100 - 100 / (1 + g / l) ≤ 100 := by
  have hkey := calculate_rsi_getElem?_eq hg hl
  have hrs : FVal.div (FVal.num g) (FVal.num l) = FVal.num (g / l) := by
    simp [FVal.div, ne_of_gt hlpos]
  rw [hrs] at hkey
  have hx0 : 0 ≤ g / l := div_nonneg hg0 (le_of_lt hlpos)
  have hadd : FVal.add (FVal.num 1) (FVal.num (g / l)) =
      FVal.num (1 + g / l) := rfl
  have h1x : (1 : ℚ) + g / l ≠ 0 := by linarith
  have hdiv : FVal.div (FVal.num 100) (FVal.num (1 + g / l)) =
      FVal.num (100 / (1 + g / l)) := by
    simp [FVal.div, h1x]
  have hsub : FVal.sub (FVal.num 100) (FVal.num (100 / (1 + g / l))) =
      FVal.num (100 - 100 / (1 + g / l)) := rfl
  rw [hadd, hdiv, hsub] at hkey
  have hle : 100 / (1 + g / l) ≤ 100 := div_le_self (by norm_num) (by linarith)
  have hgt : 0 < 100 / (1 + g / l) := div_pos (by norm_num) (by linarith)
  exact ⟨hkey, by linarith, by linarith⟩

/-! ## Claim theorems: RSI -/

/-- C1: wherever both rolling means behind `calculate_rsi` are defined and
the rolling mean loss is strictly positive, the RSI value is a number in
`[0, 100]`. -/
theorem rsi_bounded (prices : List ℚ) (period i : ℕ) (g l : ℚ)
    (hg : (rsiGain prices period)[i]? = some (FVal.num g))
    (hl : (rsiLoss prices period)[i]? = some (FVal.num l))
    (hlpos : 0 < l) :
    ∃ q, (calculate_rsi prices period)[i]? = some (FVal.num q) ∧
      0 ≤ q ∧ q ≤ 100 := by
  have hg0 : 0 ≤ g :=
    rollingMean_defined_nonneg (gainSeries prices) period i g
      (gainSeries_shape prices) hg
  obtain ⟨hval, h0, h100⟩ :=
    rsi_value_of_means prices period i g l hg hl hg0 hlpos
  exact ⟨100 - 100 / (1 + g / l), hval, h0, h100⟩

/-- Witness for C1: `prices = [1, 2, 1]`, `period = 2`, position 2, where the
rolling mean gain and loss are both 1/2. -/
theorem rsi_bounded_witness :
    ∃ q, (calculate_rsi [1, 2, 1] 2)[2]? = some (FVal.num q) ∧
      0 ≤ q ∧ q ≤ 100 :=
  rsi_bounded [1, 2, 1] 2 2 (1 / 2) (1 / 2)
    (by
      have hlen : (2 : ℕ) < (gainSeries [1, 2, 1]).length := by
        rw [gainSeries_length]; norm_num
      rw [rsiGain, rollingMean_getElem? _ _ _ hlen, if_neg (by norm_num)]
      have hg : gainSeries [1, 2, 1] = [FVal.num 0, FVal.num 1, FVal.num 0] := by
        norm_num [gainSeries, seriesDiff, FVal.gt0]
      rw [hg]
      norm_num [windowAt, FVal.add, FVal.div])
    (by
      have hlen : (2 : ℕ) < (lossSeries [1, 2, 1]).length := by
        rw [lossSeries_length]; norm_num
      rw [rsiLoss, rollingMean_getElem? _ _ _ hlen, if_neg (by norm_num)]
      have hl : lossSeries [1, 2, 1] = [FVal.num 0, FVal.num 0, FVal.num 1] := by
        norm_num [lossSeries, seriesDiff, FVal.lt0, FVal.neg]
      rw [hl]
      norm_num [windowAt, FVal.add, FVal.div])
    (by norm_num)

/-- C3 counterexample: on the flat series `[1, 1]` with period 2 the input
has `P = 2` values, yet the output at index `P - 1 = 1` is NaN (the `0/0`
singularity), not a number, so the RSI is not defined from index `P - 1`
onward for every series of length at least `P`. -/
theorem rsi_warmup_counterexample :
    ([1, 1] : List ℚ).length = 2 ∧
    (calculate_rsi [1, 1] 2)[1]? = some FVal.nan ∧
    ∀ q : ℚ, (calculate_rsi [1, 1] 2)[1]? ≠ some (FVal.num q) := by
  have hg : (rsiGain [1, 1] 2)[1]? = some (FVal.num 0) := by
    have hlen : (1 : ℕ) < (gainSeries [1, 1]).length := by
      rw [gainSeries_length]; norm_num
    rw [rsiGain, rollingMean_getElem? _ _ _ hlen, if_neg (by norm_num)]
    have hgs : gainSeries [1, 1] = [FVal.num 0, FVal.num 0] := by
      norm_num [gainSeries, seriesDiff, FVal.gt0]
    rw [hgs]
    norm_num [windowAt, FVal.add, FVal.div]
  have hl : (rsiLoss [1, 1] 2)[1]? = some (FVal.num 0) := by
    have hlen : (1 : ℕ) < (lossSeries [1, 1]).length := by
      rw [lossSeries_length]; norm_num
    rw [rsiLoss, rollingMean_getElem? _ _ _ hlen, if_neg (by norm_num)]
    have hls : lossSeries [1, 1] = [FVal.num 0, FVal.num 0] := by
      norm_num [lossSeries, seriesDiff, FVal.lt0, FVal.neg]
    rw [hls]
    norm_num [windowAt, FVal.add, FVal.div]
  have hnan : (calculate_rsi [1, 1] 2)[1]? = some FVal.nan := by
    rw [calculate_rsi_getElem?_eq hg hl]
    norm_num [FVal.div, FVal.add, FVal.sub]
  refine ⟨rfl, hnan, fun q h => ?_⟩
  rw [hnan] at h
  exact absurd (Option.some.inj h) (by simp)

/-- C3 amended: for `P ≥ 1`, `calculate_rsi` is NaN at every position with
`i + 1 < P` (the leading warm-up positions), and at every position with
`P ≤ i + 1` it is numeric exactly when the rolling mean gain and rolling
mean loss are not both zero (when both vanish the `0/0` singularity yields
NaN there as well). -/
theorem rsi_warmup_amended (prices : List ℚ) (P i : ℕ) (hP : 1 ≤ P)
    (hi : i < prices.length) :
    (i + 1 < P → (calculate_rsi prices P)[i]? = some FVal.nan) ∧
    (P ≤ i + 1 →
      ((∃ q, (calculate_rsi prices P)[i]? = some (FVal.num q)) ↔
        ¬((rsiGain prices P)[i]? = some (FVal.num 0) ∧
          (rsiLoss prices P)[i]? = some (FVal.num 0)))) := by
  have hgl : i < (gainSeries prices).length := by
    rw [gainSeries_length]; exact hi
  have hll : i < (lossSeries prices).length := by
    rw [lossSeries_length]; exact hi
  constructor
  · intro hlt
    have hg : (rsiGain prices P)[i]? = some FVal.nan := by
      rw [rsiGain, rollingMean_getElem? _ _ _ hgl, if_pos hlt]
    have hl : (rsiLoss prices P)[i]? = some FVal.nan := by
      rw [rsiLoss, rollingMean_getElem? _ _ _ hll, if_pos hlt]
    rw [calculate_rsi_getElem?_eq hg hl]
    rfl
  · intro hge
    obtain ⟨g, hg, hg0⟩ :=
      rollingMean_num (gainSeries prices) P i hP hgl hge
        (gainSeries_shape prices)
    obtain ⟨l, hl, hl0⟩ :=
      rollingMean_num (lossSeries prices) P i hP hll hge
        (lossSeries_shape prices)
    have hg' : (rsiGain prices P)[i]? = some (FVal.num g) := hg
    have hl' : (rsiLoss prices P)[i]? = some (FVal.num l) := hl
    by_cases hlz : l = 0
    · subst hlz
      by_cases hgz : g = 0
      · subst hgz
        have hkey := calculate_rsi_getElem?_eq hg' hl'
        have hval : FVal.div (FVal.num 0) (FVal.num 0) = FVal.nan := by
          simp [FVal.div]
        rw [hval] at hkey
        have hred : FVal.sub (FVal.num 100)
            (FVal.div (FVal.num 100) (FVal.add (FVal.num 1) FVal.nan)) =
            FVal.nan := rfl
        rw [hred] at hkey
        constructor
        · rintro ⟨q, hq⟩
          rw [hkey] at hq
          exact absurd (Option.some.inj hq) (by simp)
        · intro hcon
          exact absurd ⟨hg', hl'⟩ hcon
      · have hgpos : 0 < g := lt_of_le_of_ne hg0 (Ne.symm hgz)
        have hkey := calculate_rsi_getElem?_eq hg' hl'
        have hval : FVal.div (FVal.num g) (FVal.num 0) = FVal.inf := by
          simp [FVal.div, hgz, hgpos]
        rw [hval] at hkey
        have hred : FVal.sub (FVal.num 100)
            (FVal.div (FVal.num 100) (FVal.add (FVal.num 1) FVal.inf)) =
            FVal.num 100 := by
          norm_num [FVal.add, FVal.div, FVal.sub]
        rw [hred] at hkey
        constructor
        · rintro - ⟨hcg, _⟩
          rw [hg'] at hcg
          exact hgz (FVal.num.inj (Option.some.inj hcg))
        · intro _
          exact ⟨100, hkey⟩
    · have hlpos : 0 < l := lt_of_le_of_ne hl0 (Ne.symm hlz)
      obtain ⟨hval, -, -⟩ :=
        rsi_value_of_means prices P i g l hg' hl' hg0 hlpos
      constructor
      · rintro - ⟨-, hcl⟩
        rw [hl'] at hcl
        exact hlz (FVal.num.inj (Option.some.inj hcl))
      · intro _
        exact ⟨100 - 100 / (1 + g / l), hval⟩

/-- Witness for C3 amended, at `prices = [1, 2, 1]`, `P = 2`, `i = 1`: the
warm-up case is vacuous and the position is numeric because the rolling mean
gain there is `1/2 ≠ 0`. -/
theorem rsi_warmup_amended_witness :
    (1 + 1 < 2 → (calculate_rsi [1, 2, 1] 2)[1]? = some FVal.nan) ∧
    (2 ≤ 1 + 1 →
      ((∃ q, (calculate_rsi [1, 2, 1] 2)[1]? = some (FVal.num q)) ↔
        ¬((rsiGain [1, 2, 1] 2)[1]? = some (FVal.num 0) ∧
          (rsiLoss [1, 2, 1] 2)[1]? = some (FVal.num 0)))) :=
  rsi_warmup_amended [1, 2, 1] 2 1 (by norm_num) (by norm_num)

/-! ## Claim theorems: support/resistance -/

lemma mem_sr_range (n W i : ℕ) :
    i ∈ List.range' W (n - W - W) ↔ W ≤ i ∧ i + W < n := by
  rw [List.mem_range']
  constructor
  · rintro ⟨k, hk, rfl⟩
    omega
  · rintro ⟨h1, h2⟩
    exact ⟨i - W, by omega, by omega⟩

lemma mem_sr_window (prices : List ℚ) (W i : ℕ) (hle : W ≤ i)
    (hlt : i + W < prices.length) (b : ℚ) :
    b ∈ (prices.drop (i - W)).take (2 * W) ↔
      ∃ j, i - W ≤ j ∧ j < i + W ∧ prices.getD j 0 = b := by
  rw [List.mem_iff_getElem?]
  constructor
  · rintro ⟨k, hk⟩
    rw [List.getElem?_take] at hk
    by_cases hk2 : k < 2 * W
    · rw [if_pos hk2, List.getElem?_drop] at hk
      obtain ⟨hjlen, hjv⟩ := List.getElem?_eq_some_iff.mp hk
      refine ⟨i - W + k, by omega, by omega, ?_⟩
      rw [List.getD_eq_getElem prices 0 hjlen]
      exact hjv
    · rw [if_neg hk2] at hk
      exact absurd hk (by simp)
  · rintro ⟨j, hj1, hj2, rfl⟩
    refine ⟨j - (i - W), ?_⟩
    rw [List.getElem?_take, if_pos (by omega), List.getElem?_drop]
    have hidx : i - W + (j - (i - W)) = j := by omega
    rw [hidx]
    have hjlen : j < prices.length := by omega
    exact List.getElem?_eq_some_iff.mpr
      ⟨hjlen, (List.getD_eq_getElem prices 0 hjlen).symm⟩

lemma min?_window_iff (prices : List ℚ) (W i : ℕ) (hW : 1 ≤ W)
    (hle : W ≤ i) (hlt : i + W < prices.length) :
    ((prices.drop (i - W)).take (2 * W)).min? = some (prices.getD i 0) ↔
      ∀ j, i - W ≤ j → j < i + W →
        prices.getD i 0 ≤ prices.getD j 0 := by
  have anti : Std.Antisymm (α := ℚ) (· ≤ ·) :=
    ⟨@fun a b h h' => le_antisymm h h'⟩
  rw [List.min?_eq_some_iff (fun a => le_refl a) (fun a b => min_choice a b)
    (fun a b c => le_min_iff)]
  constructor
  · rintro ⟨-, hall⟩ j hj1 hj2
    exact hall _ ((mem_sr_window prices W i hle hlt _).mpr ⟨j, hj1, hj2, rfl⟩)
  · intro hall
    refine ⟨(mem_sr_window prices W i hle hlt _).mpr ⟨i, by omega, by omega, rfl⟩,
      fun b hb => ?_⟩
    obtain ⟨j, hj1, hj2, rfl⟩ := (mem_sr_window prices W i hle hlt b).mp hb
    exact hall j hj1 hj2

lemma max?_window_iff (prices : List ℚ) (W i : ℕ) (hW : 1 ≤ W)
    (hle : W ≤ i) (hlt : i + W < prices.length) :
    ((prices.drop (i - W)).take (2 * W)).max? = some (prices.getD i 0) ↔
      ∀ j, i - W ≤ j → j < i + W →
        prices.getD j 0 ≤ prices.getD i 0 := by
  have anti : Std.Antisymm (α := ℚ) (· ≤ ·) :=
    ⟨@fun a b h h' => le_antisymm h h'⟩
  rw [List.max?_eq_some_iff (fun a => le_refl a) (fun a b => max_choice a b)
    (fun a b c => max_le_iff)]
  constructor
  · rintro ⟨-, hall⟩ j hj1 hj2
    exact hall _ ((mem_sr_window prices W i hle hlt _).mpr ⟨j, hj1, hj2, rfl⟩)
  · intro hall
    refine ⟨(mem_sr_window prices W i hle hlt _).mpr ⟨i, by omega, by omega, rfl⟩,
      fun b hb => ?_⟩
    obtain ⟨j, hj1, hj2, rfl⟩ := (mem_sr_window prices W i hle hlt b).mp hb
    exact hall j hj1 hj2

/-- C4: for `W ≥ 1`, `identify_support_resistance` reports `(i, p)` as a
support point iff `i` is in the scanned range, `p` is the price at `i`, and
`p` is a minimum of the 2·W-point trailing-and-leading window
`prices[i-W .. i+W-1]` the source compares against — and symmetrically as a
resistance point for the maximum.  The characterisation is an `iff` on list
membership, so every qualifying index of a tie/plateau is accepted
independently. -/
theorem support_resistance_spec (prices : List ℚ) (W i : ℕ) (p : ℚ)
    (hW : 1 ≤ W) :
    ((i, p) ∈ (identify_support_resistance prices W).1 ↔
      (W ≤ i ∧ i + W < prices.length ∧ p = prices.getD i 0 ∧
        ∀ j, i - W ≤ j → j < i + W → p ≤ prices.getD j 0)) ∧
    ((i, p) ∈ (identify_support_resistance prices W).2 ↔
      (W ≤ i ∧ i + W < prices.length ∧ p = prices.getD i 0 ∧
        ∀ j, i - W ≤ j → j < i + W → prices.getD j 0 ≤ p)) := by
  simp only [identify_support_resistance]
  constructor
  · rw [List.mem_filterMap]
    constructor
    · rintro ⟨a, ha, hfa⟩
      by_cases hc : ((prices.drop (a - W)).take (2 * W)).min? =
          some (prices.getD a 0)
      · rw [if_pos hc] at hfa
        obtain ⟨h3, h4⟩ := Prod.ext_iff.mp (Option.some.inj hfa)
        subst h3
        subst h4
        obtain ⟨h1, h2⟩ := (mem_sr_range prices.length W a).mp ha
        exact ⟨h1, h2, rfl,
          (min?_window_iff prices W a hW h1 h2).mp hc⟩
      · rw [if_neg hc] at hfa
        exact absurd hfa (by simp)
    · rintro ⟨h1, h2, rfl, hall⟩
      refine ⟨i, (mem_sr_range prices.length W i).mpr ⟨h1, h2⟩, ?_⟩
      rw [if_pos ((min?_window_iff prices W i hW h1 h2).mpr hall)]
  · rw [List.mem_filterMap]
    constructor
    · rintro ⟨a, ha, hfa⟩
      by_cases hc : ((prices.drop (a - W)).take (2 * W)).max? =
          some (prices.getD a 0)
      · rw [if_pos hc] at hfa
        obtain ⟨h3, h4⟩ := Prod.ext_iff.mp (Option.some.inj hfa)
        subst h3
        subst h4
        obtain ⟨h1, h2⟩ := (mem_sr_range prices.length W a).mp ha
        exact ⟨h1, h2, rfl,
          (max?_window_iff prices W a hW h1 h2).mp hc⟩
      · rw [if_neg hc] at hfa
        exact absurd hfa (by simp)
    · rintro ⟨h1, h2, rfl, hall⟩
      refine ⟨i, (mem_sr_range prices.length W i).mpr ⟨h1, h2⟩, ?_⟩
      rw [if_pos ((max?_window_iff prices W i hW h1 h2).mpr hall)]

/-- Witness for C4 at `prices = [3, 1, 2]`, `W = 1`, `(i, p) = (1, 1)`. -/
theorem support_resistance_spec_witness :
    (((1 : ℕ), (1 : ℚ)) ∈ (identify_support_resistance [3, 1, 2] 1).1 ↔
      (1 ≤ 1 ∧ 1 + 1 < ([3, 1, 2] : List ℚ).length ∧
        (1 : ℚ) = ([3, 1, 2] : List ℚ).getD 1 0 ∧
        ∀ j, 1 - 1 ≤ j → j < 1 + 1 →
          (1 : ℚ) ≤ ([3, 1, 2] : List ℚ).getD j 0)) ∧
    (((1 : ℕ), (1 : ℚ)) ∈ (identify_support_resistance [3, 1, 2] 1).2 ↔
      (1 ≤ 1 ∧ 1 + 1 < ([3, 1, 2] : List ℚ).length ∧
        (1 : ℚ) = ([3, 1, 2] : List ℚ).getD 1 0 ∧
        ∀ j, 1 - 1 ≤ j → j < 1 + 1 →
          ([3, 1, 2] : List ℚ).getD j 0 ≤ 1)) :=
  support_resistance_spec [3, 1, 2] 1 1 1 (le_refl 1)

end Trading

